import Mathlib

/-!
Shallow embedding of the metric collector in src/collector.c.

Modelling conventions:
* C strings (NUL-terminated char arrays) are `List Char` (`CStr`); the
  32-byte `ip` buffer and the 512-byte line buffers are abstracted to
  unbounded lists, which is exact for the inputs the claims quantify over
  (ids and lines that fit their buffers; a line handed to `parse_cpu` or
  `parse_mem` comes from a recv buffer of at most 511 bytes, so the
  `strncpy` into `copy` never truncates).
* `float` values are modelled as exact rationals (`Rat`): no claim depends
  on binary floating-point rounding, only on which value is stored.
* libc `atof`/`strtod` is modelled on its decimal forms (optional
  whitespace, optional sign, digits, optional fractional part); the hex,
  exponent, inf and nan forms are not exercised by any claim.
* `strtok(s, sep)` yields the maximal non-empty runs of non-separator
  characters, in order; this is `splitOn` followed by dropping empty
  pieces.
* Undefined behaviour is explicit: the C code passes the result of
  `strtok` (possibly `NULL`) straight into `atof` at collector.c lines
  116-118 and 146-149; `atof(NULL)` is undefined behaviour, modelled by
  the `CResult.ub` outcome.
-/

set_option autoImplicit false

namespace Collector

abbrev CStr := List Char

/-- Outcome of running a piece of C code: a defined result, or undefined
behaviour (here: `atof` applied to a `NULL` pointer). -/
inductive CResult (α : Type) where
  | ok : α → CResult α
  | ub : CResult α
deriving DecidableEq

/-! ## strtok -/

/-- Split a string at every occurrence of `sep`, keeping empty pieces. -/
def splitOn (sep : Char) : CStr → List CStr
  | [] => [[]]
  | c :: rest =>
    match splitOn sep rest with
    | [] => [[]]
    | t :: ts => if c = sep then [] :: t :: ts else (c :: t) :: ts

/-- The sequence of tokens produced by repeated `strtok(·, sep)` calls:
maximal non-empty runs of non-separator characters. -/
def strtokAll (sep : Char) (s : CStr) : List CStr :=
  (splitOn sep s).filter (fun t => !t.isEmpty)

/-! ## atof (libc strtod, decimal forms) -/

/-- Whitespace skipped by `strtod` (C `isspace`). -/
def isSpaceChar (c : Char) : Bool :=
  c = ' ' || c = '\t' || c = '\n' || c = '\x0b' || c = '\x0c' || c = '\r'

/-- Value of a digit string, most significant digit first. -/
def digitsVal (l : List Char) : Nat :=
  l.foldl (fun a c => 10 * a + (c.toNat - 48)) 0

/-- Magnitude part of `strtod` after sign handling: digits, optionally a
point and more digits, valued `ipart.fpart`; an input with no digits at
all is "no conversion" and yields `0`. -/
def atofCore (s : CStr) : Rat :=
  let ipart := s.takeWhile Char.isDigit
  let rest := s.dropWhile Char.isDigit
  if rest.head? = some '.' then
    let fpart := (rest.drop 1).takeWhile Char.isDigit
    if ipart = [] ∧ fpart = [] then 0
    else mkRat (digitsVal ipart * 10 ^ fpart.length + digitsVal fpart) (10 ^ fpart.length)
  else (digitsVal ipart : Rat)

/-- Model of libc `atof` on its decimal forms: skip whitespace, consume an
optional sign, then the decimal magnitude. -/
def atof (s : CStr) : Rat :=
  let s1 := s.dropWhile isSpaceChar
  if s1.head? = some '-' then - atofCore (s1.drop 1)
  else if s1.head? = some '+' then atofCore (s1.drop 1)
  else atofCore s1

/-- The "no conversion performed" condition of `strtod`, under which it
returns `0`: after whitespace and an optional sign there is no digit and
no point-followed-by-digit. -/
def noConversion (s : CStr) : Bool :=
  let s1 := s.dropWhile isSpaceChar
  let s2 := if s1.head? = some '-' ∨ s1.head? = some '+' then s1.drop 1 else s1
  (s2.takeWhile Char.isDigit).isEmpty &&
    (decide (s2.head? ≠ some '.') || ((s2.drop 1).takeWhile Char.isDigit).isEmpty)

/-! ## Host table (collector.c lines 36-97) -/

def MAX_HOSTS : Nat := 64

/-- One slot of the global `hosts` array (`host_info_t`). A slot with
`ip = []` is free. -/
structure HostInfo where
  ip : CStr
  cpu_usage : Rat
  cpu_user : Rat
  cpu_sys : Rat
  cpu_idle : Rat
  mem_used : Rat
  mem_free : Rat
  swap_t : Rat
  swap_f : Rat
  has_cpu : Bool
  has_mem : Bool
deriving DecidableEq

def emptyHost : HostInfo :=
  { ip := [], cpu_usage := 0, cpu_user := 0, cpu_sys := 0, cpu_idle := 0
    mem_used := 0, mem_free := 0, swap_t := 0, swap_f := 0
    has_cpu := false, has_mem := false }

abbrev HostTable := List HostInfo

/-- The global `hosts` array at program start: `MAX_HOSTS` zero-initialized
slots. -/
def initTable : HostTable := List.replicate MAX_HOSTS emptyHost

/-- Index of the first slot whose `ip` equals `q` (the scanning loops of
`get_host`; with `q = []` it is the free-slot search, since a free slot is
exactly one with `ip[0] == '\0'`). -/
def findHost (q : CStr) : HostTable → Option Nat
  | [] => none
  | h :: t => if h.ip = q then some 0 else (findHost q t).map Nat.succ

/-- Replace slot `i` by `f` applied to it (in-place array update). -/
def modifyIdx (f : HostInfo → HostInfo) : Nat → HostTable → HostTable
  | _, [] => []
  | 0, h :: t => f h :: t
  | n + 1, h :: t => h :: modifyIdx f n t

/-- `get_host` (collector.c lines 78-97): find the slot for `ip`, else
claim the first free slot and write `ip` into it, else fail (table full).
Returns the slot index together with the possibly-updated table. -/
def get_host (t : HostTable) (ip : CStr) : Option (Nat × HostTable) :=
  match findHost ip t with
  | some i => some (i, t)
  | none =>
    match findHost [] t with
    | some i => some (i, modifyIdx (fun h => { h with ip := ip }) i t)
    | none => none

/-! ## Parsed updates and their application -/

/-- A successfully parsed protocol line. -/
inductive Update where
  | cpu (ip : CStr) (usage user sys idle : Rat)
  | mem (ip : CStr) (used free swt swf : Rat)
deriving DecidableEq

def Update.uid : Update → CStr
  | .cpu ip _ _ _ _ => ip
  | .mem ip _ _ _ _ => ip

/-- The CPU-field store of collector.c lines 125-129. -/
def setCpu (h : HostInfo) (usage user sys idle : Rat) : HostInfo :=
  { h with cpu_usage := usage, cpu_user := user, cpu_sys := sys,
           cpu_idle := idle, has_cpu := true }

/-- The memory-field store of collector.c lines 156-160. -/
def setMem (h : HostInfo) (used free swt swf : Rat) : HostInfo :=
  { h with mem_used := used, mem_free := free, swap_t := swt,
           swap_f := swf, has_mem := true }

/-- What an update writes into the record `get_host` returned. -/
def applyRec : Update → HostInfo → HostInfo
  | .cpu _ a b c d, h => setCpu h a b c d
  | .mem _ a b c d, h => setMem h a b c d

/-- The table mutation performed once a line has parsed: `get_host`
followed by the field stores (collector.c lines 121-131 and 152-162);
if `get_host` fails the update is dropped. -/
def applyUpdate (t : HostTable) (u : Update) : HostTable :=
  match get_host t u.uid with
  | some (i, t1) => modifyIdx (applyRec u) i t1
  | none => t

def applyUpdates (t : HostTable) (us : List Update) : HostTable :=
  us.foldl applyUpdate t

/-! ## parse_cpu / parse_mem (collector.c lines 102-163) -/

/-- `parse_cpu` (collector.c lines 102-132). Token 1 (ip) and token 2
(usage) are NULL-checked; tokens 3-5 are fed to `atof` unchecked, so a
missing one is `atof(NULL)`: undefined behaviour. -/
def parse_cpu (msg : CStr) : CResult (Option Update) :=
  let toks := strtokAll ';' msg
  match toks[1]? with
  | none => .ok none
  | some ip =>
    match toks[2]? with
    | none => .ok none
    | some t2 =>
      match toks[3]?, toks[4]?, toks[5]? with
      | some t3, some t4, some t5 =>
        .ok (some (.cpu ip (atof t2) (atof t3) (atof t4) (atof t5)))
      | _, _, _ => .ub

/-- `parse_mem` (collector.c lines 137-163). Only token 1 (ip) is
NULL-checked; tokens 2-5 are fed to `atof` unchecked. -/
def parse_mem (msg : CStr) : CResult (Option Update) :=
  let toks := strtokAll ';' msg
  match toks[1]? with
  | none => .ok none
  | some ip =>
    match toks[2]?, toks[3]?, toks[4]?, toks[5]? with
    | some t2, some t3, some t4, some t5 =>
      .ok (some (.mem ip (atof t2) (atof t3) (atof t4) (atof t5)))
    | _, _, _, _ => .ub

def cpuTag : CStr := ['C', 'P', 'U', ';']
def memTag : CStr := ['M', 'E', 'M', ';']

/-- Handling of one line inside `client_thread` (collector.c lines
199-204): dispatch on the 4-byte tag, parse, and apply the parsed update
to the table. -/
def processLine (t : HostTable) (line : CStr) : CResult HostTable :=
  if cpuTag.isPrefixOf line then
    match parse_cpu line with
    | .ok (some u) => .ok (applyUpdate t u)
    | .ok none => .ok t
    | .ub => .ub
  else if memTag.isPrefixOf line then
    match parse_mem line with
    | .ok (some u) => .ok (applyUpdate t u)
    | .ok none => .ok t
    | .ub => .ub
  else
    .ok t

def processLines (t : HostTable) : List CStr → CResult HostTable
  | [] => .ok t
  | l :: ls =>
    match processLine t l with
    | .ok t1 => processLines t1 ls
    | .ub => .ub

/-- One `recv` buffer as handled by `client_thread` (collector.c lines
190-208): the buffer is split on newlines by `strtok` and each piece is
processed as a complete line — including a trailing piece with no
terminating newline. -/
def processRead (t : HostTable) (buf : CStr) : CResult HostTable :=
  processLines t (strtokAll '\n' buf)

/-- A whole connection as the code runs it: each `recv` buffer is
processed independently; no partial line is carried across reads. -/
def processReads (t : HostTable) : List CStr → CResult HostTable
  | [] => .ok t
  | b :: bs =>
    match processRead t b with
    | .ok t1 => processReads t1 bs
    | .ub => .ub

/-! ## Observations -/

/-- The record stored for `ip`, if any. -/
def recordOf (t : HostTable) (ip : CStr) : Option HostInfo :=
  (findHost ip t).map (fun i => t.getD i emptyHost)

/-- Ids of the occupied slots, in table order. -/
def tableIds (t : HostTable) : List CStr :=
  (t.filter (fun h => !h.ip.isEmpty)).map HostInfo.ip

/-- The live ids after a computation, `none` on undefined behaviour. -/
def liveIdsOf : CResult HostTable → Option (List CStr)
  | .ok t => some (tableIds t)
  | .ub => none

/-- The stored `cpu_idle` of `ip` after a computation. -/
def idleOf (r : CResult HostTable) (ip : CStr) : Option Rat :=
  match r with
  | .ok t => (recordOf t ip).map HostInfo.cpu_idle
  | .ub => none

/-- String literal helper: its character list. -/
def cs (s : String) : CStr := s.data

/-- The body of a well-shaped five-field protocol line after its tag:
`id;f1;f2;f3;f4`. -/
def fieldsTail (id f1 f2 f3 f4 : CStr) : CStr :=
  id ++ ';' :: (f1 ++ ';' :: (f2 ++ ';' :: (f3 ++ ';' :: f4)))

/-- A five-field body followed by a sixth separator and arbitrary further
bytes (extra fields). -/
def fieldsTailX (id f1 f2 f3 f4 extra : CStr) : CStr :=
  id ++ ';' :: (f1 ++ ';' :: (f2 ++ ';' :: (f3 ++ ';' :: (f4 ++ ';' :: extra))))

/-- A CPU line with exactly the five required fields. -/
def cpuLineOf (id f1 f2 f3 f4 : CStr) : CStr :=
  ['C', 'P', 'U'] ++ ';' :: fieldsTail id f1 f2 f3 f4

/-- A MEM line with exactly the five required fields. -/
def memLineOf (id f1 f2 f3 f4 : CStr) : CStr :=
  ['M', 'E', 'M'] ++ ';' :: fieldsTail id f1 f2 f3 f4

/-- A CPU line with extra trailing fields beyond the five required. -/
def cpuLineXOf (id f1 f2 f3 f4 extra : CStr) : CStr :=
  ['C', 'P', 'U'] ++ ';' :: fieldsTailX id f1 f2 f3 f4 extra

/-- A MEM line with extra trailing fields beyond the five required. -/
def memLineXOf (id f1 f2 f3 f4 extra : CStr) : CStr :=
  ['M', 'E', 'M'] ++ ';' :: fieldsTailX id f1 f2 f3 f4 extra

/-- A concrete stream of `MAX_HOSTS + 1` updates with pairwise-distinct
one-character ids. -/
def capacityWitnessUpdates : List Update :=
  (List.range (MAX_HOSTS + 1)).map (fun k => Update.cpu [Char.ofNat (65 + k)] 0 0 0 0)

/-- The memory half of a record: the four memory fields and `has_mem`. -/
def memView (h : HostInfo) : Rat × Rat × Rat × Rat × Bool :=
  (h.mem_used, h.mem_free, h.swap_t, h.swap_f, h.has_mem)

/-- The CPU half of a record: the four CPU fields and `has_cpu`. -/
def cpuView (h : HostInfo) : Rat × Rat × Rat × Rat × Bool :=
  (h.cpu_usage, h.cpu_user, h.cpu_sys, h.cpu_idle, h.has_cpu)

/-! ## Basic lemmas about the table primitives -/

theorem modifyIdx_nil (f : HostInfo → HostInfo) (i : Nat) :
    modifyIdx f i [] = [] := by
  cases i <;> rfl

theorem length_modifyIdx (f : HostInfo → HostInfo) (i : Nat) (t : HostTable) :
    (modifyIdx f i t).length = t.length := by
  induction t generalizing i with
  | nil => simp [modifyIdx_nil]
  | cons h tl ih => cases i <;> simp [modifyIdx, ih]

theorem getD_modifyIdx_self (f : HostInfo → HostInfo) (i : Nat) (t : HostTable)
    (d : HostInfo) (hi : i < t.length) :
    (modifyIdx f i t).getD i d = f (t.getD i d) := by
  induction t generalizing i with
  | nil => simp at hi
  | cons h tl ih =>
    cases i with
    | zero => rfl
    | succ n => simpa [modifyIdx] using ih n (by simpa using hi)

theorem getD_modifyIdx_ne (f : HostInfo → HostInfo) (i j : Nat) (t : HostTable)
    (d : HostInfo) (hij : i ≠ j) :
    (modifyIdx f i t).getD j d = t.getD j d := by
  induction t generalizing i j with
  | nil => simp [modifyIdx_nil]
  | cons h tl ih =>
    cases i with
    | zero =>
      cases j with
      | zero => exact absurd rfl hij
      | succ m => rfl
    | succ n =>
      cases j with
      | zero => rfl
      | succ m => simpa [modifyIdx] using ih n m (by omega)

theorem findHost_lt_length {q : CStr} {t : HostTable} {i : Nat}
    (h : findHost q t = some i) : i < t.length := by
  induction t generalizing i with
  | nil => simp [findHost] at h
  | cons x tl ih =>
    by_cases hx : x.ip = q
    · simp [findHost, hx] at h
      simp [List.length_cons]
      omega
    · simp [findHost, hx] at h
      obtain ⟨j, hj, rfl⟩ := h
      have := ih hj
      simp [List.length_cons]
      omega

theorem findHost_getD {q : CStr} {t : HostTable} {i : Nat}
    (h : findHost q t = some i) : (t.getD i emptyHost).ip = q := by
  induction t generalizing i with
  | nil => simp [findHost] at h
  | cons x tl ih =>
    by_cases hx : x.ip = q
    · simp [findHost, hx] at h
      subst h
      simpa using hx
    · simp [findHost, hx] at h
      obtain ⟨j, hj, rfl⟩ := h
      simpa using ih hj

theorem findHost_eq_none_iff {q : CStr} {t : HostTable} :
    findHost q t = none ↔ ∀ h ∈ t, h.ip ≠ q := by
  induction t with
  | nil => simp [findHost]
  | cons x tl ih =>
    by_cases hx : x.ip = q
    · simp [findHost, hx]
    · simp [findHost, hx, ih]

theorem findHost_modifyIdx_ip_eq {f : HostInfo → HostInfo}
    (hf : ∀ h, (f h).ip = h.ip) (q : CStr) (i : Nat) (t : HostTable) :
    findHost q (modifyIdx f i t) = findHost q t := by
  induction t generalizing i with
  | nil => simp [modifyIdx_nil]
  | cons x tl ih =>
    cases i with
    | zero => simp [modifyIdx, findHost, hf x]
    | succ n => simp [modifyIdx, findHost, ih n]

theorem findHost_modifyIdx_other {f : HostInfo → HostInfo} {q : CStr}
    {i : Nat} {t : HostTable}
    (hold : (t.getD i emptyHost).ip ≠ q)
    (hnew : (f (t.getD i emptyHost)).ip ≠ q) :
    findHost q (modifyIdx f i t) = findHost q t := by
  induction t generalizing i with
  | nil => simp [modifyIdx_nil]
  | cons x tl ih =>
    cases i with
    | zero =>
      simp only [List.getD_cons_zero] at hold hnew
      simp [modifyIdx, findHost, hold, hnew]
    | succ n =>
      simp only [List.getD_cons_succ] at hold hnew
      simp [modifyIdx, findHost, ih hold hnew]

theorem findHost_modifyIdx_becomes {f : HostInfo → HostInfo} {q : CStr}
    {j : Nat} {t : HostTable}
    (hq : findHost q t = none) (hj : j < t.length)
    (hnew : (f (t.getD j emptyHost)).ip = q) :
    findHost q (modifyIdx f j t) = some j := by
  induction t generalizing j with
  | nil => simp at hj
  | cons x tl ih =>
    have hx : x.ip ≠ q := by
      rw [findHost_eq_none_iff] at hq
      exact hq x (by simp)
    cases j with
    | zero =>
      simp only [List.getD_cons_zero] at hnew
      simp [modifyIdx, findHost, hnew]
    | succ n =>
      have hq' : findHost q tl = none := by
        rw [findHost_eq_none_iff] at hq ⊢
        exact fun h hm => hq h (by simp [hm])
      simp only [List.getD_cons_succ] at hnew
      simp [modifyIdx, findHost, hx, ih hq' (by simpa using hj) hnew]

/-! ## Shape lemmas for applyUpdate -/

theorem ip_applyRec (u : Update) (h : HostInfo) : (applyRec u h).ip = h.ip := by
  cases u <;> rfl

theorem has_cpu_applyRec (u : Update) (h : HostInfo) (hc : h.has_cpu = true) :
    (applyRec u h).has_cpu = true := by
  cases u <;> simp [applyRec, setCpu, setMem, hc]

theorem has_mem_applyRec (u : Update) (h : HostInfo) (hm : h.has_mem = true) :
    (applyRec u h).has_mem = true := by
  cases u <;> simp [applyRec, setCpu, setMem, hm]

theorem applyRec_applyRec (u : Update) (h : HostInfo) :
    applyRec u (applyRec u h) = applyRec u h := by
  cases u <;> rfl

theorem modifyIdx_modifyIdx (f g : HostInfo → HostInfo) (i : Nat) (t : HostTable) :
    modifyIdx f i (modifyIdx g i t) = modifyIdx (fun h => f (g h)) i t := by
  induction t generalizing i with
  | nil => simp [modifyIdx_nil]
  | cons x tl ih => cases i <;> simp [modifyIdx, ih]

theorem applyUpdate_found {t : HostTable} {u : Update} {i : Nat}
    (h : findHost u.uid t = some i) :
    applyUpdate t u = modifyIdx (applyRec u) i t := by
  unfold applyUpdate get_host
  rw [h]

theorem applyUpdate_create {t : HostTable} {u : Update} {j : Nat}
    (h1 : findHost u.uid t = none) (h2 : findHost [] t = some j) :
    applyUpdate t u = modifyIdx (fun h => applyRec u { h with ip := u.uid }) j t := by
  unfold applyUpdate get_host
  rw [h1, h2]
  simp [modifyIdx_modifyIdx]

theorem applyUpdate_drop {t : HostTable} {u : Update}
    (h1 : findHost u.uid t = none) (h2 : findHost [] t = none) :
    applyUpdate t u = t := by
  unfold applyUpdate get_host
  rw [h1, h2]

/-- Where the code has defined behaviour, `applyUpdate` is idempotent:
re-applying the very same parsed update changes nothing. -/
theorem applyUpdate_idem (t : HostTable) (u : Update) :
    applyUpdate (applyUpdate t u) u = applyUpdate t u := by
  cases hf : findHost u.uid t with
  | some i =>
    rw [applyUpdate_found hf]
    have hf2 : findHost u.uid (modifyIdx (applyRec u) i t) = some i := by
      rw [findHost_modifyIdx_ip_eq (ip_applyRec u)]
      exact hf
    rw [applyUpdate_found hf2, modifyIdx_modifyIdx]
    simp [applyRec_applyRec]
  | none =>
    cases he : findHost [] t with
    | some j =>
      rw [applyUpdate_create hf he]
      have hj : j < t.length := findHost_lt_length he
      have hf2 : findHost u.uid
          (modifyIdx (fun h => applyRec u { h with ip := u.uid }) j t) = some j := by
        refine findHost_modifyIdx_becomes hf hj ?_
        rw [ip_applyRec]
      rw [applyUpdate_found hf2, modifyIdx_modifyIdx]
      simp [applyRec_applyRec]
    | none =>
      rw [applyUpdate_drop hf he, applyUpdate_drop hf he]

/-! ## Record-level lemmas -/

theorem recordOf_ip {t : HostTable} {q : CStr} {h : HostInfo}
    (hr : recordOf t q = some h) : h.ip = q := by
  unfold recordOf at hr
  cases hf : findHost q t with
  | none => rw [hf] at hr; exact Option.noConfusion hr
  | some i =>
    rw [hf] at hr
    simp only [Option.map_some', Option.some.injEq] at hr
    rw [← hr]
    exact findHost_getD hf

/-- One defined update step preserves presence of every host record and
only ever raises the `has_cpu`/`has_mem` flags. -/
theorem recordOf_applyUpdate_step (t : HostTable) (u : Update) (q : CStr)
    (h : HostInfo) (hq : q ≠ []) (hrec : recordOf t q = some h) :
    ∃ h2, recordOf (applyUpdate t u) q = some h2 ∧ h2.ip = q ∧
      (h.has_cpu = true → h2.has_cpu = true) ∧
      (h.has_mem = true → h2.has_mem = true) := by
  unfold recordOf at hrec
  cases hfq : findHost q t with
  | none => rw [hfq] at hrec; exact Option.noConfusion hrec
  | some i =>
  rw [hfq] at hrec
  simp only [Option.map_some', Option.some.injEq] at hrec
  have hi : i < t.length := findHost_lt_length hfq
  cases hf : findHost u.uid t with
  | some j =>
    rw [applyUpdate_found hf]
    refine ⟨(modifyIdx (applyRec u) j t).getD i emptyHost, ?_, ?_, ?_⟩
    · unfold recordOf
      rw [findHost_modifyIdx_ip_eq (ip_applyRec u), hfq]
      simp only [Option.map_some']
    · by_cases hij : j = i
      · subst hij
        rw [getD_modifyIdx_self _ _ _ _ hi, ip_applyRec]
        exact findHost_getD hfq
      · rw [getD_modifyIdx_ne _ _ _ _ _ hij]
        exact findHost_getD hfq
    · by_cases hij : j = i
      · subst hij
        rw [getD_modifyIdx_self _ _ _ _ hi, hrec]
        exact ⟨has_cpu_applyRec u h, has_mem_applyRec u h⟩
      · rw [getD_modifyIdx_ne _ _ _ _ _ hij, hrec]
        exact ⟨fun hc => hc, fun hm => hm⟩
  | none =>
    cases he : findHost [] t with
    | some j =>
      rw [applyUpdate_create hf he]
      have hji : j ≠ i := by
        intro hji
        subst hji
        have h1 := findHost_getD he
        have h2 := findHost_getD hfq
        rw [h1] at h2
        exact hq h2.symm
      have hstable : findHost q
          (modifyIdx (fun h => applyRec u { h with ip := u.uid }) j t)
            = findHost q t := by
        refine findHost_modifyIdx_other ?_ ?_
        · rw [findHost_getD he]
          exact fun hc => hq hc.symm
        · rw [ip_applyRec]
          intro hc
          have hcon : findHost u.uid t = some i := by rw [← hc] at hfq; exact hfq
          rw [hf] at hcon
          exact Option.noConfusion hcon
      refine ⟨h, ?_, ?_, fun hc => hc, fun hm => hm⟩
      · unfold recordOf
        rw [hstable, hfq]
        simp only [Option.map_some', Option.some.injEq]
        rw [getD_modifyIdx_ne _ _ _ _ _ hji, hrec]
      · rw [← hrec]
        exact findHost_getD hfq
    | none =>
      rw [applyUpdate_drop hf he]
      refine ⟨h, ?_, ?_, fun hc => hc, fun hm => hm⟩
      · unfold recordOf
        rw [hfq]
        simp only [Option.map_some', Option.some.injEq]
        exact hrec
      · rw [← hrec]
        exact findHost_getD hfq

/-! ## Claim theorems: concrete divergences -/

/-- C1. The claim says a `CPU;`/`MEM;` line with fewer than the five
required fields applies no update and performs no table mutation. On the
spec's own example line `CPU;10.0.0.1;1;2` the code instead reaches
`atof(strtok(NULL, ";"))` at collector.c line 117 — `atof(NULL)`,
undefined behaviour — rather than discarding the line. -/
theorem c1_short_line_is_undefined_behaviour :
    processLine initTable (cs "CPU;10.0.0.1;1;2") = CResult.ub ∧
    parse_cpu (cs "CPU;10.0.0.1;1;2") = CResult.ub := by
  constructor <;> decide

/-- C2. The claim says `parse_cpu` and `parse_mem` are total and never
reach undefined behaviour. `parse_mem` NULL-checks only the ip token
(collector.c line 142) and then runs `atof(strtok(NULL, ";"))` on the
used/free/swap fields (lines 146-149), so the line `MEM;10.0.0.1` drives
`atof(NULL)`: undefined behaviour, not a handled error branch. -/
theorem c2_parse_mem_missing_fields_undefined_behaviour :
    processLine initTable (cs "MEM;10.0.0.1") = CResult.ub ∧
    parse_mem (cs "MEM;10.0.0.1") = CResult.ub := by
  constructor <;> decide

/-- C3. The claim says a trailing partial line is carried over to the next
read, so a valid CPU line split across two reads is applied exactly once
(with its full field values). The code (collector.c lines 190-208) parses
each recv buffer independently: splitting `CPU;1.2.3.4;55.0;20.0;10.0;25.5\n`
into the reads `...;25` and `.5\n` makes the code apply a truncated update
with `cpu_idle = 25` and discard `.5`, while delivering the same bytes in
one read stores `cpu_idle = 25.5`. -/
theorem c3_partial_line_not_carried_across_reads :
    idleOf (processReads initTable
        [cs "CPU;1.2.3.4;55.0;20.0;10.0;25", cs ".5\n"]) (cs "1.2.3.4")
      = some 25 ∧
    idleOf (processReads initTable
        [cs "CPU;1.2.3.4;55.0;20.0;10.0;25.5\n"]) (cs "1.2.3.4")
      = some (mkRat 51 2) ∧
    (25 : Rat) ≠ mkRat 51 2 := by
  refine ⟨by decide, by decide, by decide⟩

/-- C7. The claim says a line whose host_id field is empty is discarded
with no record created. `strtok` collapses the empty field, so on
`CPU;;1;2;3;4;5` the code shifts every field left and creates a record
under the id `1`; and on the shape `CPU;;10;20;30;40` the shift leaves
the idle token missing, reaching `atof(NULL)`: undefined behaviour. -/
theorem c7_empty_host_id_not_discarded :
    liveIdsOf (processLine initTable (cs "CPU;;1;2;3;4;5")) = some [cs "1"] ∧
    processLine initTable (cs "CPU;;10;20;30;40") = CResult.ub := by
  constructor <;> decide

/-! ## Fold and view lemmas -/

theorem applyUpdates_cons (t : HostTable) (u : Update) (us : List Update) :
    applyUpdates t (u :: us) = applyUpdates (applyUpdate t u) us := rfl

theorem applyUpdates_append (t : HostTable) (a b : List Update) :
    applyUpdates t (a ++ b) = applyUpdates (applyUpdates t a) b :=
  List.foldl_append applyUpdate t a b

theorem getD_modifyIdx_congr {α : Type} (v : HostInfo → α) {f : HostInfo → HostInfo}
    (hf : ∀ h, v (f h) = v h) (j i : Nat) (t : HostTable) :
    v ((modifyIdx f j t).getD i emptyHost) = v (t.getD i emptyHost) := by
  induction t generalizing i j with
  | nil => simp [modifyIdx_nil]
  | cons x tl ih =>
    cases j with
    | zero =>
      cases i with
      | zero => simpa [modifyIdx] using hf x
      | succ m => simp [modifyIdx]
    | succ n =>
      cases i with
      | zero => simp [modifyIdx]
      | succ m => simpa [modifyIdx] using ih n m

/-- A line that carries the `MEM;` tag cannot carry the `CPU;` tag. -/
theorem cpuTag_isPrefixOf_eq_false {line : CStr}
    (hpre : memTag.isPrefixOf line = true) :
    cpuTag.isPrefixOf line = false := by
  rw [List.isPrefixOf_iff_prefix] at hpre
  obtain ⟨rest, rfl⟩ := hpre
  rfl

/-- A CPU-kind update never touches the memory half of any slot. -/
theorem memView_applyUpdate_cpu (t : HostTable) (q : CStr)
    (x y z w : Rat) (i : Nat) :
    memView ((applyUpdate t (.cpu q x y z w)).getD i emptyHost)
      = memView (t.getD i emptyHost) := by
  cases hf : findHost (Update.uid (.cpu q x y z w)) t with
  | some j =>
    rw [applyUpdate_found hf]
    apply getD_modifyIdx_congr
    intro h
    rfl
  | none =>
    cases he : findHost [] t with
    | some j =>
      rw [applyUpdate_create hf he]
      apply getD_modifyIdx_congr
      intro h
      rfl
    | none => rw [applyUpdate_drop hf he]

/-- A MEM-kind update never touches the CPU half of any slot. -/
theorem cpuView_applyUpdate_mem (t : HostTable) (q : CStr)
    (x y z w : Rat) (i : Nat) :
    cpuView ((applyUpdate t (.mem q x y z w)).getD i emptyHost)
      = cpuView (t.getD i emptyHost) := by
  cases hf : findHost (Update.uid (.mem q x y z w)) t with
  | some j =>
    rw [applyUpdate_found hf]
    apply getD_modifyIdx_congr
    intro h
    rfl
  | none =>
    cases he : findHost [] t with
    | some j =>
      rw [applyUpdate_create hf he]
      apply getD_modifyIdx_congr
      intro h
      rfl
    | none => rw [applyUpdate_drop hf he]

/-! ## Claim theorems: invariants and algebraic properties -/

/-- C5. Once a host record exists, every further sequence of applied
updates keeps it in the table with its id intact, and the `has_cpu` and
`has_mem` flags are monotone: once true they stay true. -/
theorem c5_flags_monotone_records_persist (t : HostTable) (us : List Update)
    (q : CStr) (h : HostInfo) (hq : q ≠ []) (hrec : recordOf t q = some h) :
    ∃ h2, recordOf (applyUpdates t us) q = some h2 ∧ h2.ip = q ∧
      (h.has_cpu = true → h2.has_cpu = true) ∧
      (h.has_mem = true → h2.has_mem = true) := by
  induction us generalizing t h with
  | nil => exact ⟨h, hrec, recordOf_ip hrec, fun hc => hc, fun hm => hm⟩
  | cons u rest ih =>
    obtain ⟨h2, hr2, _, hc2, hm2⟩ := recordOf_applyUpdate_step t u q h hq hrec
    obtain ⟨h3, hr3, hip3, hc3, hm3⟩ := ih (applyUpdate t u) h2 hr2
    exact ⟨h3, by rw [applyUpdates_cons]; exact hr3, hip3,
      fun hc => hc3 (hc2 hc), fun hm => hm3 (hm2 hm)⟩

theorem c5_witness :
    ((cs "a" ≠ ([] : CStr)) ∧
      recordOf (applyUpdate initTable (.cpu (cs "a") 1 2 3 4)) (cs "a")
        = some { ip := cs "a", cpu_usage := 1, cpu_user := 2, cpu_sys := 3,
                 cpu_idle := 4, mem_used := 0, mem_free := 0, swap_t := 0,
                 swap_f := 0, has_cpu := true, has_mem := false }) ∧
    (∃ h2, recordOf (applyUpdates (applyUpdate initTable (.cpu (cs "a") 1 2 3 4))
            [.mem (cs "a") 5 6 7 8, .cpu (cs "b") 9 9 9 9]) (cs "a") = some h2 ∧
        h2.ip = cs "a" ∧
        (({ ip := cs "a", cpu_usage := 1, cpu_user := 2, cpu_sys := 3,
            cpu_idle := 4, mem_used := 0, mem_free := 0, swap_t := 0,
            swap_f := 0, has_cpu := true, has_mem := false } : HostInfo).has_cpu = true
          → h2.has_cpu = true) ∧
        (({ ip := cs "a", cpu_usage := 1, cpu_user := 2, cpu_sys := 3,
            cpu_idle := 4, mem_used := 0, mem_free := 0, swap_t := 0,
            swap_f := 0, has_cpu := true, has_mem := false } : HostInfo).has_mem = true
          → h2.has_mem = true)) :=
  ⟨⟨by decide, by decide⟩,
    c5_flags_monotone_records_persist _ [.mem (cs "a") 5 6 7 8, .cpu (cs "b") 9 9 9 9]
      (cs "a") _ (by decide) (by decide)⟩

/-- C8. Applying a valid CPU update then a valid MEM update for the same
id (given the id is resident or a slot is free) yields a record with both
flags true and exactly the eight supplied field values; moreover a CPU
update leaves the memory half of every slot unchanged and a MEM update
leaves the CPU half of every slot unchanged. -/
theorem c8_cpu_then_mem_no_cross_contamination (t : HostTable) (q : CStr)
    (a b c d e f g k : Rat) (hq : q ≠ [])
    (hroom : findHost q t ≠ none ∨ findHost [] t ≠ none) :
    (∃ h, recordOf (applyUpdate (applyUpdate t (.cpu q a b c d)) (.mem q e f g k)) q
        = some h ∧
      h.has_cpu = true ∧ h.has_mem = true ∧
      h.cpu_usage = a ∧ h.cpu_user = b ∧ h.cpu_sys = c ∧ h.cpu_idle = d ∧
      h.mem_used = e ∧ h.mem_free = f ∧ h.swap_t = g ∧ h.swap_f = k) ∧
    (∀ (t2 : HostTable) (q2 : CStr) (x y z w : Rat) (i : Nat),
      memView ((applyUpdate t2 (.cpu q2 x y z w)).getD i emptyHost)
        = memView (t2.getD i emptyHost)) ∧
    (∀ (t2 : HostTable) (q2 : CStr) (x y z w : Rat) (i : Nat),
      cpuView ((applyUpdate t2 (.mem q2 x y z w)).getD i emptyHost)
        = cpuView (t2.getD i emptyHost)) := by
  refine ⟨?_, memView_applyUpdate_cpu, cpuView_applyUpdate_mem⟩
  cases hf : findHost q t with
  | some i =>
    have hi : i < t.length := findHost_lt_length hf
    rw [applyUpdate_found (u := .cpu q a b c d) hf]
    have hf2 : findHost q (modifyIdx (applyRec (.cpu q a b c d)) i t) = some i := by
      rw [findHost_modifyIdx_ip_eq (ip_applyRec _)]
      exact hf
    rw [applyUpdate_found (u := .mem q e f g k) hf2, modifyIdx_modifyIdx]
    refine ⟨applyRec (.mem q e f g k) (applyRec (.cpu q a b c d) (t.getD i emptyHost)),
      ?_, by simp [applyRec, setCpu, setMem]⟩
    unfold recordOf
    rw [findHost_modifyIdx_ip_eq (fun h => by rw [ip_applyRec, ip_applyRec]), hf,
      Option.map_some', getD_modifyIdx_self _ _ _ _ hi]
  | none =>
    cases he : findHost [] t with
    | some j =>
      have hj : j < t.length := findHost_lt_length he
      rw [applyUpdate_create (u := .cpu q a b c d) hf he]
      simp only [Update.uid]
      have hf2 : findHost q
          (modifyIdx (fun h => applyRec (.cpu q a b c d) { h with ip := q }) j t)
            = some j := by
        refine findHost_modifyIdx_becomes hf hj ?_
        rw [ip_applyRec]
      rw [applyUpdate_found (u := .mem q e f g k) hf2, modifyIdx_modifyIdx]
      refine ⟨applyRec (.mem q e f g k)
          (applyRec (.cpu q a b c d) { t.getD j emptyHost with ip := q }),
        ?_, by simp [applyRec, setCpu, setMem]⟩
      unfold recordOf
      have hf3 : findHost q (modifyIdx
          (fun h => applyRec (.mem q e f g k)
            (applyRec (.cpu q a b c d) { h with ip := q })) j t) = some j := by
        refine findHost_modifyIdx_becomes hf hj ?_
        rw [ip_applyRec, ip_applyRec]
      rw [hf3, Option.map_some', getD_modifyIdx_self _ _ _ _ hj]
    | none =>
      rcases hroom with hr | hr
      · exact absurd hf hr
      · exact absurd he hr

theorem c8_witness :
    ((cs "h" ≠ ([] : CStr)) ∧
      (findHost (cs "h") initTable ≠ none ∨ findHost [] initTable ≠ none)) ∧
    ((∃ h, recordOf (applyUpdate (applyUpdate initTable (.cpu (cs "h") 1 2 3 4))
          (.mem (cs "h") 5 6 7 8)) (cs "h") = some h ∧
      h.has_cpu = true ∧ h.has_mem = true ∧
      h.cpu_usage = 1 ∧ h.cpu_user = 2 ∧ h.cpu_sys = 3 ∧ h.cpu_idle = 4 ∧
      h.mem_used = 5 ∧ h.mem_free = 6 ∧ h.swap_t = 7 ∧ h.swap_f = 8) ∧
    (∀ (t2 : HostTable) (q2 : CStr) (x y z w : Rat) (i : Nat),
      memView ((applyUpdate t2 (.cpu q2 x y z w)).getD i emptyHost)
        = memView (t2.getD i emptyHost)) ∧
    (∀ (t2 : HostTable) (q2 : CStr) (x y z w : Rat) (i : Nat),
      cpuView ((applyUpdate t2 (.mem q2 x y z w)).getD i emptyHost)
        = cpuView (t2.getD i emptyHost))) :=
  ⟨⟨by decide, Or.inr (by decide)⟩,
    c8_cpu_then_mem_no_cross_contamination initTable (cs "h") 1 2 3 4 5 6 7 8
      (by decide) (Or.inr (by decide))⟩

/-- C9. Applying the identical valid MEM line twice in succession leaves
the whole table exactly as applying it once. -/
theorem c9_mem_line_idempotent (t : HostTable) (line : CStr) (u : Update)
    (hpre : memTag.isPrefixOf line = true)
    (hp : parse_mem line = CResult.ok (some u)) :
    processLine t line = CResult.ok (applyUpdate t u) ∧
    processLine (applyUpdate t u) line = CResult.ok (applyUpdate t u) := by
  have hcpu := cpuTag_isPrefixOf_eq_false hpre
  constructor
  · simp [processLine, hcpu, hpre, hp]
  · simp [processLine, hcpu, hpre, hp, applyUpdate_idem]

theorem c9_witness :
    (memTag.isPrefixOf (cs "MEM;1.2.3.4;10;20;30;40") = true ∧
      parse_mem (cs "MEM;1.2.3.4;10;20;30;40")
        = CResult.ok (some (.mem (cs "1.2.3.4") 10 20 30 40))) ∧
    (processLine initTable (cs "MEM;1.2.3.4;10;20;30;40")
        = CResult.ok (applyUpdate initTable (.mem (cs "1.2.3.4") 10 20 30 40)) ∧
      processLine (applyUpdate initTable (.mem (cs "1.2.3.4") 10 20 30 40))
          (cs "MEM;1.2.3.4;10;20;30;40")
        = CResult.ok (applyUpdate initTable (.mem (cs "1.2.3.4") 10 20 30 40))) :=
  ⟨⟨by decide, by decide⟩,
    c9_mem_line_idempotent initTable (cs "MEM;1.2.3.4;10;20;30;40")
      (.mem (cs "1.2.3.4") 10 20 30 40) (by decide) (by decide)⟩

/-! ## Capacity lemmas -/

theorem findHost_free_append (hs : List HostInfo) (r : List HostInfo)
    (hips : ∀ x ∈ hs, x.ip ≠ ([] : CStr)) :
    findHost [] (hs ++ emptyHost :: r) = some hs.length := by
  induction hs with
  | nil => simp [findHost, emptyHost]
  | cons x tl ih =>
    have hx : x.ip ≠ [] := hips x (by simp)
    have htl : ∀ y ∈ tl, y.ip ≠ ([] : CStr) := fun y hy => hips y (by simp [hy])
    simp [findHost, hx, ih htl]

theorem modifyIdx_append_cons (f : HostInfo → HostInfo) (hs : List HostInfo)
    (x : HostInfo) (r : List HostInfo) :
    modifyIdx f hs.length (hs ++ x :: r) = hs ++ f x :: r := by
  induction hs with
  | nil => rfl
  | cons y tl ih => simp [modifyIdx, ih]

/-- Applying an update for an unseen, non-empty id when a free slot
remains: the update claims the first free slot. -/
theorem applyUpdate_fresh_step (hs : List HostInfo) (m : Nat) (u : Update)
    (hips : ∀ x ∈ hs, x.ip ≠ ([] : CStr)) (hne : u.uid ≠ [])
    (hfresh : u.uid ∉ hs.map HostInfo.ip) :
    applyUpdate (hs ++ emptyHost :: List.replicate m emptyHost) u
      = (hs ++ [applyRec u { emptyHost with ip := u.uid }])
          ++ List.replicate m emptyHost := by
  have hnone : findHost u.uid (hs ++ emptyHost :: List.replicate m emptyHost) = none := by
    rw [findHost_eq_none_iff]
    intro x hx
    rcases List.mem_append.mp hx with hx | hx
    · intro hc
      exact hfresh (hc ▸ List.mem_map_of_mem HostInfo.ip hx)
    · rcases List.mem_cons.mp hx with rfl | hx
      · exact fun hc => hne hc.symm
      · rw [List.eq_of_mem_replicate hx]
        exact fun hc => hne hc.symm
  have hfree := findHost_free_append hs (List.replicate m emptyHost) hips
  rw [applyUpdate_create hnone hfree, modifyIdx_append_cons]
  simp

/-- Applying an update for an unseen, non-empty id when the table has no
free slot: the update is dropped without any mutation. -/
theorem applyUpdate_full_fresh (hs : List HostInfo) (u : Update)
    (hips : ∀ x ∈ hs, x.ip ≠ ([] : CStr))
    (hfresh : u.uid ∉ hs.map HostInfo.ip) :
    applyUpdate hs u = hs := by
  have hnone : findHost u.uid hs = none := by
    rw [findHost_eq_none_iff]
    intro x hx hc
    exact hfresh (hc ▸ List.mem_map_of_mem HostInfo.ip hx)
  have hfree : findHost [] hs = none := by
    rw [findHost_eq_none_iff]
    exact hips
  exact applyUpdate_drop hnone hfree

/-- Folding a sequence of updates with pairwise-distinct, unseen,
non-empty ids over a table of `hs` occupied slots followed by free slots:
the occupied prefix grows by arrival order, clipped at capacity. -/
theorem applyUpdates_fresh (us : List Update) (hs : List HostInfo)
    (hips : ∀ x ∈ hs, x.ip ≠ ([] : CStr)) (hlen : hs.length ≤ MAX_HOSTS)
    (hnd : (us.map Update.uid).Nodup) (hne : ∀ u ∈ us, u.uid ≠ ([] : CStr))
    (hfresh : ∀ u ∈ us, u.uid ∉ hs.map HostInfo.ip) :
    ∃ hs2, applyUpdates (hs ++ List.replicate (MAX_HOSTS - hs.length) emptyHost) us
        = hs2 ++ List.replicate (MAX_HOSTS - hs2.length) emptyHost
      ∧ hs2.map HostInfo.ip
          = (hs.map HostInfo.ip ++ us.map Update.uid).take MAX_HOSTS
      ∧ (∀ x ∈ hs2, x.ip ≠ ([] : CStr)) ∧ hs2.length ≤ MAX_HOSTS := by
  induction us generalizing hs with
  | nil =>
    refine ⟨hs, rfl, ?_, hips, hlen⟩
    rw [List.map_nil, List.append_nil,
      List.take_of_length_le (by rw [List.length_map]; exact hlen)]
  | cons u rest ih =>
    have hndu : u.uid ∉ rest.map Update.uid := by
      rw [List.map_cons, List.nodup_cons] at hnd
      exact hnd.1
    have hndr : (rest.map Update.uid).Nodup := by
      rw [List.map_cons, List.nodup_cons] at hnd
      exact hnd.2
    rcases Nat.lt_or_ge hs.length MAX_HOSTS with hlt | hge
    · have hm : MAX_HOSTS - hs.length = (MAX_HOSTS - (hs.length + 1)) + 1 := by omega
      rw [hm, List.replicate_succ, applyUpdates_cons,
        applyUpdate_fresh_step hs _ u hips (hne u (by simp)) (hfresh u (by simp))]
      have hlen2 : (hs ++ [applyRec u { emptyHost with ip := u.uid }]).length
          = hs.length + 1 := by simp
      have hm2 : MAX_HOSTS - (hs.length + 1)
          = MAX_HOSTS - (hs ++ [applyRec u { emptyHost with ip := u.uid }]).length := by
        rw [hlen2]
      rw [hm2]
      obtain ⟨hs2, heq, hids, hips2, hlen3⟩ :=
        ih (hs ++ [applyRec u { emptyHost with ip := u.uid }])
          (by
            intro x hx
            rcases List.mem_append.mp hx with hx | hx
            · exact hips x hx
            · rcases List.mem_cons.mp hx with rfl | hx
              · rw [ip_applyRec]
                exact hne u (by simp)
              · exact absurd hx (List.not_mem_nil x))
          (by rw [hlen2]; omega)
          hndr
          (fun r hr => hne r (by simp [hr]))
          (by
            intro r hr
            rw [List.map_append]
            intro hmem
            rcases List.mem_append.mp hmem with hmem | hmem
            · exact hfresh r (by simp [hr]) hmem
            · simp only [List.map_cons, List.map_nil, ip_applyRec,
                List.mem_singleton] at hmem
              exact hndu (hmem ▸ List.mem_map_of_mem Update.uid hr))
      refine ⟨hs2, heq, ?_, hips2, hlen3⟩
      rw [hids]
      simp [List.append_assoc, ip_applyRec]
    · have heq64 : hs.length = MAX_HOSTS := Nat.le_antisymm hlen hge
      have hz : MAX_HOSTS - hs.length = 0 := by omega
      rw [hz, List.replicate, List.append_nil, applyUpdates_cons,
        applyUpdate_full_fresh hs u hips (hfresh u (by simp))]
      have hids64 : (hs.map HostInfo.ip).length = MAX_HOSTS := by
        rw [List.length_map]; exact heq64
      obtain ⟨hs2, heq, hids, hips2, hlen3⟩ :=
        ih hs hips hlen hndr (fun r hr => hne r (by simp [hr]))
          (fun r hr => hfresh r (by simp [hr]))
      refine ⟨hs2, ?_, ?_, hips2, hlen3⟩
      · rw [← heq, hz, List.replicate, List.append_nil]
      · rw [hids, List.take_append_of_le_length (le_of_eq hids64.symm),
          List.take_append_of_le_length (le_of_eq hids64.symm)]

theorem tableIds_append_replicate (hs : List HostInfo) (m : Nat)
    (hips : ∀ x ∈ hs, x.ip ≠ ([] : CStr)) :
    tableIds (hs ++ List.replicate m emptyHost) = hs.map HostInfo.ip := by
  unfold tableIds
  rw [List.filter_append]
  have h1 : hs.filter (fun h => !h.ip.isEmpty) = hs := by
    apply List.filter_eq_self.mpr
    intro x hx
    simpa [List.isEmpty_iff] using hips x hx
  have h2 : (List.replicate m emptyHost).filter (fun h => !h.ip.isEmpty) = [] := by
    apply List.filter_eq_nil_iff.mpr
    intro x hx
    rw [List.eq_of_mem_replicate hx]
    decide
  rw [h1, h2, List.append_nil]

/-- Membership in `tableIds` yields a found slot. -/
theorem findHost_of_mem_tableIds {t : HostTable} {q : CStr}
    (hmem : q ∈ tableIds t) : ∃ i, findHost q t = some i := by
  unfold tableIds at hmem
  obtain ⟨x, hx, hip⟩ := List.mem_map.mp hmem
  have hxt : x ∈ t := List.mem_of_mem_filter hx
  cases hf : findHost q t with
  | some i => exact ⟨i, rfl⟩
  | none =>
    rw [findHost_eq_none_iff] at hf
    exact absurd hip (hf x hxt)

/-- An update whose id is already resident is applied in place: the
resident record is overwritten by the corresponding field store. -/
theorem applyUpdate_existing (t : HostTable) (w : Update)
    (hmem : w.uid ∈ tableIds t) :
    ∃ h, recordOf t w.uid = some h ∧
      recordOf (applyUpdate t w) w.uid = some (applyRec w h) := by
  obtain ⟨i, hf⟩ := findHost_of_mem_tableIds hmem
  have hi : i < t.length := findHost_lt_length hf
  refine ⟨t.getD i emptyHost, ?_, ?_⟩
  · unfold recordOf
    rw [hf, Option.map_some']
  · rw [applyUpdate_found hf]
    unfold recordOf
    rw [findHost_modifyIdx_ip_eq (ip_applyRec w), hf, Option.map_some',
      getD_modifyIdx_self _ _ _ _ hi]

/-- C4. Feeding `MAX_HOSTS + 1` successfully parsed updates with distinct
non-empty ids into an empty table leaves exactly the first `MAX_HOSTS` ids
in arrival order; the update beyond capacity is dropped with no table
mutation (the run equals the run of the first `MAX_HOSTS` updates alone);
and any update for a resident id is still applied in place. -/
theorem c4_capacity_policy (us : List Update)
    (hlen : us.length = MAX_HOSTS + 1)
    (hnd : (us.map Update.uid).Nodup)
    (hne : ∀ u ∈ us, u.uid ≠ ([] : CStr)) :
    tableIds (applyUpdates initTable us) = (us.map Update.uid).take MAX_HOSTS
    ∧ applyUpdates initTable us = applyUpdates initTable (us.take MAX_HOSTS)
    ∧ (∀ w : Update, w.uid ∈ tableIds (applyUpdates initTable us) →
        ∃ h, recordOf (applyUpdates initTable us) w.uid = some h ∧
          recordOf (applyUpdate (applyUpdates initTable us) w) w.uid
            = some (applyRec w h)) := by
  have hinit : initTable
      = ([] : List HostInfo)
          ++ List.replicate (MAX_HOSTS - ([] : List HostInfo).length) emptyHost := rfl
  refine ⟨?_, ?_, fun w hmem => applyUpdate_existing _ w hmem⟩
  · obtain ⟨hs2, heq, hids, hips2, -⟩ :=
      applyUpdates_fresh us [] (by simp) (Nat.zero_le _) hnd hne (by simp)
    rw [hinit, heq, tableIds_append_replicate hs2 _ hips2, hids, List.map_nil,
      List.nil_append]
  · obtain ⟨u65, hdrop⟩ : ∃ u65, us.drop MAX_HOSTS = [u65] := by
      rw [← List.length_eq_one, List.length_drop, hlen]
      omega
    have hmem65 : u65 ∈ us := List.drop_subset MAX_HOSTS us (hdrop ▸ List.mem_singleton_self u65)
    obtain ⟨hs2, heq, hids, hips2, -⟩ :=
      applyUpdates_fresh (us.take MAX_HOSTS) [] (by simp) (Nat.zero_le _)
        (List.Nodup.sublist (by rw [List.map_take]; exact List.take_sublist _ _) hnd)
        (fun u hu => hne u (List.take_subset _ _ hu)) (by simp)
    have hids' : hs2.map HostInfo.ip = (us.map Update.uid).take MAX_HOSTS := by
      rw [hids, List.map_nil, List.nil_append, List.map_take,
        List.take_of_length_le (by rw [List.length_take]; omega)]
    have hlen2 : hs2.length = MAX_HOSTS := by
      have := congrArg List.length hids'
      rw [List.length_map, List.length_take, List.length_map, hlen] at this
      omega
    have hT64 : applyUpdates initTable (us.take MAX_HOSTS) = hs2 := by
      rw [hinit, heq, hlen2, Nat.sub_self, List.replicate, List.append_nil]
    have hfresh65 : u65.uid ∉ hs2.map HostInfo.ip := by
      rw [hids']
      have hsplit : (us.map Update.uid).take MAX_HOSTS ++ (us.map Update.uid).drop MAX_HOSTS
          = us.map Update.uid := List.take_append_drop _ _
      have hnd2 := hnd
      rw [← hsplit, List.nodup_append] at hnd2
      intro hmem
      refine hnd2.2.2 hmem ?_
      rw [← List.map_drop, hdrop]
      exact List.mem_singleton_self _
    conv_lhs => rw [← List.take_append_drop MAX_HOSTS us]
    rw [applyUpdates_append, hdrop, hT64]
    exact applyUpdate_full_fresh hs2 u65 hips2 hfresh65

theorem c4_witness :
    (capacityWitnessUpdates.length = MAX_HOSTS + 1 ∧
      (capacityWitnessUpdates.map Update.uid).Nodup ∧
      (∀ u ∈ capacityWitnessUpdates, u.uid ≠ ([] : CStr))) ∧
    (tableIds (applyUpdates initTable capacityWitnessUpdates)
        = (capacityWitnessUpdates.map Update.uid).take MAX_HOSTS
      ∧ applyUpdates initTable capacityWitnessUpdates
          = applyUpdates initTable (capacityWitnessUpdates.take MAX_HOSTS)
      ∧ (∀ w : Update,
          w.uid ∈ tableIds (applyUpdates initTable capacityWitnessUpdates) →
          ∃ h, recordOf (applyUpdates initTable capacityWitnessUpdates) w.uid
              = some h ∧
            recordOf (applyUpdate (applyUpdates initTable capacityWitnessUpdates) w)
                w.uid = some (applyRec w h))) :=
  ⟨⟨by decide, by decide, by decide⟩,
    c4_capacity_policy capacityWitnessUpdates (by decide) (by decide) (by decide)⟩

/-! ## Tokenization lemmas -/

theorem splitOn_cons (sep c : Char) (r : CStr) :
    splitOn sep (c :: r)
      = match splitOn sep r with
        | [] => [[]]
        | t :: ts => if c = sep then [] :: t :: ts else (c :: t) :: ts := rfl

theorem splitOn_ne_nil (sep : Char) (s : CStr) : splitOn sep s ≠ [] := by
  cases s with
  | nil => simp [splitOn]
  | cons c r =>
    rw [splitOn_cons]
    cases h : splitOn sep r with
    | nil => simp
    | cons t ts => by_cases hc : c = sep <;> simp [hc]

theorem splitOn_sepfree (sep : Char) (a : CStr) (ha : sep ∉ a) :
    splitOn sep a = [a] := by
  induction a with
  | nil => rfl
  | cons c r ih =>
    have hc : c ≠ sep := fun hcs => ha (hcs ▸ List.mem_cons_self c r)
    have hr : sep ∉ r := fun hm => ha (List.mem_cons_of_mem c hm)
    rw [splitOn_cons, ih hr]
    simp [hc]

theorem splitOn_append_sep (sep : Char) (a r : CStr) (ha : sep ∉ a) :
    splitOn sep (a ++ sep :: r) = a :: splitOn sep r := by
  induction a with
  | nil =>
    simp only [List.nil_append]
    rw [splitOn_cons]
    cases h : splitOn sep r with
    | nil => exact absurd h (splitOn_ne_nil sep r)
    | cons t ts => simp
  | cons c a2 ih =>
    have hc : c ≠ sep := fun hcs => ha (hcs ▸ List.mem_cons_self c a2)
    have ha2 : sep ∉ a2 := fun hm => ha (List.mem_cons_of_mem c hm)
    simp only [List.cons_append]
    rw [splitOn_cons, ih ha2]
    simp [hc]

theorem strtokAll_append_sep (sep : Char) (a r : CStr) (ha : sep ∉ a)
    (hne : a ≠ []) :
    strtokAll sep (a ++ sep :: r) = a :: strtokAll sep r := by
  unfold strtokAll
  rw [splitOn_append_sep sep a r ha]
  simp [List.filter_cons, List.isEmpty_iff, hne]

theorem strtokAll_sepfree (sep : Char) (a : CStr) (ha : sep ∉ a) (hne : a ≠ []) :
    strtokAll sep a = [a] := by
  unfold strtokAll
  rw [splitOn_sepfree sep a ha]
  simp [List.filter_cons, List.isEmpty_iff, hne]

theorem strtokAll_fieldsTail (id f1 f2 f3 f4 : CStr)
    (hid : ';' ∉ id) (hid0 : id ≠ []) (h1 : ';' ∉ f1) (h10 : f1 ≠ [])
    (h2 : ';' ∉ f2) (h20 : f2 ≠ []) (h3 : ';' ∉ f3) (h30 : f3 ≠ [])
    (h4 : ';' ∉ f4) (h40 : f4 ≠ []) :
    strtokAll ';' (fieldsTail id f1 f2 f3 f4) = [id, f1, f2, f3, f4] := by
  unfold fieldsTail
  rw [strtokAll_append_sep ';' id _ hid hid0,
    strtokAll_append_sep ';' f1 _ h1 h10,
    strtokAll_append_sep ';' f2 _ h2 h20,
    strtokAll_append_sep ';' f3 _ h3 h30,
    strtokAll_sepfree ';' f4 h4 h40]

theorem strtokAll_fieldsTailX (id f1 f2 f3 f4 extra : CStr)
    (hid : ';' ∉ id) (hid0 : id ≠ []) (h1 : ';' ∉ f1) (h10 : f1 ≠ [])
    (h2 : ';' ∉ f2) (h20 : f2 ≠ []) (h3 : ';' ∉ f3) (h30 : f3 ≠ [])
    (h4 : ';' ∉ f4) (h40 : f4 ≠ []) :
    strtokAll ';' (fieldsTailX id f1 f2 f3 f4 extra)
      = id :: f1 :: f2 :: f3 :: f4 :: strtokAll ';' extra := by
  unfold fieldsTailX
  rw [strtokAll_append_sep ';' id _ hid hid0,
    strtokAll_append_sep ';' f1 _ h1 h10,
    strtokAll_append_sep ';' f2 _ h2 h20,
    strtokAll_append_sep ';' f3 _ h3 h30,
    strtokAll_append_sep ';' f4 _ h4 h40]

theorem strtokAll_cpuLineOf (id f1 f2 f3 f4 : CStr) (rest : List CStr)
    (htail : strtokAll ';' (fieldsTail id f1 f2 f3 f4) = rest) :
    strtokAll ';' (cpuLineOf id f1 f2 f3 f4) = ['C', 'P', 'U'] :: rest := by
  unfold cpuLineOf
  rw [strtokAll_append_sep ';' ['C', 'P', 'U'] _ (by decide) (by decide), htail]

theorem strtokAll_memLineOf (id f1 f2 f3 f4 : CStr) (rest : List CStr)
    (htail : strtokAll ';' (fieldsTail id f1 f2 f3 f4) = rest) :
    strtokAll ';' (memLineOf id f1 f2 f3 f4) = ['M', 'E', 'M'] :: rest := by
  unfold memLineOf
  rw [strtokAll_append_sep ';' ['M', 'E', 'M'] _ (by decide) (by decide), htail]

theorem strtokAll_cpuLineXOf (id f1 f2 f3 f4 extra : CStr) (rest : List CStr)
    (htail : strtokAll ';' (fieldsTailX id f1 f2 f3 f4 extra) = rest) :
    strtokAll ';' (cpuLineXOf id f1 f2 f3 f4 extra) = ['C', 'P', 'U'] :: rest := by
  unfold cpuLineXOf
  rw [strtokAll_append_sep ';' ['C', 'P', 'U'] _ (by decide) (by decide), htail]

theorem strtokAll_memLineXOf (id f1 f2 f3 f4 extra : CStr) (rest : List CStr)
    (htail : strtokAll ';' (fieldsTailX id f1 f2 f3 f4 extra) = rest) :
    strtokAll ';' (memLineXOf id f1 f2 f3 f4 extra) = ['M', 'E', 'M'] :: rest := by
  unfold memLineXOf
  rw [strtokAll_append_sep ';' ['M', 'E', 'M'] _ (by decide) (by decide), htail]

/-- Whenever the tokens of a line are a tag followed by at least five
fields, `parse_cpu` succeeds with the `atof` values of fields 2-5 and
ignores every further token. -/
theorem parse_cpu_tokens (msg t0 id f1 f2 f3 f4 : CStr) (rest : List CStr)
    (htoks : strtokAll ';' msg = t0 :: id :: f1 :: f2 :: f3 :: f4 :: rest) :
    parse_cpu msg
      = CResult.ok (some (.cpu id (atof f1) (atof f2) (atof f3) (atof f4))) := by
  unfold parse_cpu
  rw [htoks]
  simp

/-- Whenever the tokens of a line are a tag followed by at least five
fields, `parse_mem` succeeds with the `atof` values of fields 2-5 and
ignores every further token. -/
theorem parse_mem_tokens (msg t0 id f1 f2 f3 f4 : CStr) (rest : List CStr)
    (htoks : strtokAll ';' msg = t0 :: id :: f1 :: f2 :: f3 :: f4 :: rest) :
    parse_mem msg
      = CResult.ok (some (.mem id (atof f1) (atof f2) (atof f3) (atof f4))) := by
  unfold parse_mem
  rw [htoks]
  simp

/-! ## atof no-conversion lemma -/

theorem dropWhile_eq_self_of_takeWhile_eq_nil {p : Char → Bool} {l : CStr}
    (h : l.takeWhile p = []) : l.dropWhile p = l := by
  cases l with
  | nil => rfl
  | cons c r =>
    rw [List.takeWhile_cons] at h
    by_cases hc : p c
    · simp [hc] at h
    · simp [List.dropWhile_cons, hc]

theorem atofCore_eq_zero (s : CStr)
    (hdig : s.takeWhile Char.isDigit = [])
    (hfrac : s.head? = some '.' → (s.drop 1).takeWhile Char.isDigit = []) :
    atofCore s = 0 := by
  unfold atofCore
  rw [hdig, dropWhile_eq_self_of_takeWhile_eq_nil hdig]
  by_cases hh : s.head? = some '.'
  · rw [if_pos hh, if_pos ⟨rfl, hfrac hh⟩]
  · rw [if_neg hh]
    simp [digitsVal]

/-- A field on which `strtod` performs no conversion is taken as zero by
`atof`. -/
theorem atof_eq_zero_of_noConversion (s : CStr) (h : noConversion s = true) :
    atof s = 0 := by
  simp only [noConversion, Bool.and_eq_true, Bool.or_eq_true,
    decide_eq_true_iff, List.isEmpty_iff] at h
  simp only [atof]
  by_cases hm : (s.dropWhile isSpaceChar).head? = some '-'
  · rw [if_pos hm]
    rw [if_pos (Or.inl hm)] at h
    rw [atofCore_eq_zero _ h.1 (fun hh => h.2.resolve_left (fun hc => hc hh))]
    exact neg_zero
  · by_cases hp : (s.dropWhile isSpaceChar).head? = some '+'
    · rw [if_neg hm, if_pos hp]
      rw [if_pos (Or.inr hp)] at h
      exact atofCore_eq_zero _ h.1 (fun hh => h.2.resolve_left (fun hc => hc hh))
    · rw [if_neg hm, if_neg hp]
      rw [if_neg (fun hc => hc.elim hm hp)] at h
      exact atofCore_eq_zero _ h.1 (fun hh => h.2.resolve_left (fun hc => hc hh))

/-! ## Claim theorems: parser field handling -/

/-- C6. A `CPU;` or `MEM;` line with its five fields present (non-empty,
separator-free) is never discarded: it is applied with each numeric field
taken at its `atof` value, and any field on which numeric conversion
fails contributes exactly `0`. -/
theorem c6_unparsable_field_taken_as_zero (t : HostTable)
    (id f1 f2 f3 f4 : CStr)
    (hid : ';' ∉ id) (hid0 : id ≠ []) (h1 : ';' ∉ f1) (h10 : f1 ≠ [])
    (h2 : ';' ∉ f2) (h20 : f2 ≠ []) (h3 : ';' ∉ f3) (h30 : f3 ≠ [])
    (h4 : ';' ∉ f4) (h40 : f4 ≠ []) :
    processLine t (cpuLineOf id f1 f2 f3 f4)
      = CResult.ok (applyUpdate t (.cpu id (atof f1) (atof f2) (atof f3) (atof f4)))
    ∧ processLine t (memLineOf id f1 f2 f3 f4)
      = CResult.ok (applyUpdate t (.mem id (atof f1) (atof f2) (atof f3) (atof f4)))
    ∧ (∀ s : CStr, noConversion s = true → atof s = 0) := by
  have htail := strtokAll_fieldsTail id f1 f2 f3 f4 hid hid0 h1 h10 h2 h20 h3 h30 h4 h40
  refine ⟨?_, ?_, atof_eq_zero_of_noConversion⟩
  · have hp := parse_cpu_tokens (cpuLineOf id f1 f2 f3 f4) ['C', 'P', 'U']
      id f1 f2 f3 f4 [] (strtokAll_cpuLineOf id f1 f2 f3 f4 _ htail)
    have htag : cpuTag.isPrefixOf (cpuLineOf id f1 f2 f3 f4) = true := by
      simp [cpuLineOf, cpuTag, List.isPrefixOf]
    simp [processLine, htag, hp]
  · have hp := parse_mem_tokens (memLineOf id f1 f2 f3 f4) ['M', 'E', 'M']
      id f1 f2 f3 f4 [] (strtokAll_memLineOf id f1 f2 f3 f4 _ htail)
    have htagc : cpuTag.isPrefixOf (memLineOf id f1 f2 f3 f4) = false := by
      simp [memLineOf, cpuTag, List.isPrefixOf]
    have htagm : memTag.isPrefixOf (memLineOf id f1 f2 f3 f4) = true := by
      simp [memLineOf, memTag, List.isPrefixOf]
    simp [processLine, htagc, htagm, hp]

theorem c6_witness :
    ((';' ∉ cs "10.0.0.1") ∧ (cs "10.0.0.1" ≠ ([] : CStr)) ∧
      (';' ∉ cs "abc") ∧ (cs "abc" ≠ ([] : CStr)) ∧
      (';' ∉ cs "1") ∧ (cs "1" ≠ ([] : CStr)) ∧
      (';' ∉ cs "2") ∧ (cs "2" ≠ ([] : CStr)) ∧
      (';' ∉ cs "3") ∧ (cs "3" ≠ ([] : CStr)) ∧
      noConversion (cs "abc") = true ∧ atof (cs "abc") = 0) ∧
    (processLine initTable (cpuLineOf (cs "10.0.0.1") (cs "abc") (cs "1") (cs "2") (cs "3"))
        = CResult.ok (applyUpdate initTable
            (.cpu (cs "10.0.0.1") (atof (cs "abc")) (atof (cs "1"))
              (atof (cs "2")) (atof (cs "3"))))
      ∧ processLine initTable (memLineOf (cs "10.0.0.1") (cs "abc") (cs "1") (cs "2") (cs "3"))
          = CResult.ok (applyUpdate initTable
              (.mem (cs "10.0.0.1") (atof (cs "abc")) (atof (cs "1"))
                (atof (cs "2")) (atof (cs "3"))))
      ∧ (∀ s : CStr, noConversion s = true → atof s = 0)) :=
  ⟨⟨by decide, by decide, by decide, by decide, by decide, by decide, by decide,
      by decide, by decide, by decide, by decide, by decide⟩,
    c6_unparsable_field_taken_as_zero initTable (cs "10.0.0.1") (cs "abc")
      (cs "1") (cs "2") (cs "3") (by decide) (by decide) (by decide) (by decide)
      (by decide) (by decide) (by decide) (by decide) (by decide) (by decide)⟩

/-- C10. A `CPU;` or `MEM;` line carrying more than the five required
fields is not discarded: the first five fields are parsed and applied and
all extra trailing bytes are ignored. -/
theorem c10_extra_fields_ignored (t : HostTable)
    (id f1 f2 f3 f4 extra : CStr)
    (hid : ';' ∉ id) (hid0 : id ≠ []) (h1 : ';' ∉ f1) (h10 : f1 ≠ [])
    (h2 : ';' ∉ f2) (h20 : f2 ≠ []) (h3 : ';' ∉ f3) (h30 : f3 ≠ [])
    (h4 : ';' ∉ f4) (h40 : f4 ≠ []) :
    processLine t (cpuLineXOf id f1 f2 f3 f4 extra)
      = CResult.ok (applyUpdate t (.cpu id (atof f1) (atof f2) (atof f3) (atof f4)))
    ∧ processLine t (memLineXOf id f1 f2 f3 f4 extra)
      = CResult.ok (applyUpdate t (.mem id (atof f1) (atof f2) (atof f3) (atof f4))) := by
  have htail := strtokAll_fieldsTailX id f1 f2 f3 f4 extra hid hid0 h1 h10 h2 h20 h3 h30 h4 h40
  constructor
  · have hp := parse_cpu_tokens (cpuLineXOf id f1 f2 f3 f4 extra) ['C', 'P', 'U']
      id f1 f2 f3 f4 (strtokAll ';' extra) (strtokAll_cpuLineXOf id f1 f2 f3 f4 extra _ htail)
    have htag : cpuTag.isPrefixOf (cpuLineXOf id f1 f2 f3 f4 extra) = true := by
      simp [cpuLineXOf, cpuTag, List.isPrefixOf]
    simp [processLine, htag, hp]
  · have hp := parse_mem_tokens (memLineXOf id f1 f2 f3 f4 extra) ['M', 'E', 'M']
      id f1 f2 f3 f4 (strtokAll ';' extra) (strtokAll_memLineXOf id f1 f2 f3 f4 extra _ htail)
    have htagc : cpuTag.isPrefixOf (memLineXOf id f1 f2 f3 f4 extra) = false := by
      simp [memLineXOf, cpuTag, List.isPrefixOf]
    have htagm : memTag.isPrefixOf (memLineXOf id f1 f2 f3 f4 extra) = true := by
      simp [memLineXOf, memTag, List.isPrefixOf]
    simp [processLine, htagc, htagm, hp]

theorem c10_witness :
    ((';' ∉ cs "1.2.3.4") ∧ (cs "1.2.3.4" ≠ ([] : CStr)) ∧
      (';' ∉ cs "1") ∧ (cs "1" ≠ ([] : CStr)) ∧
      (';' ∉ cs "2") ∧ (cs "2" ≠ ([] : CStr)) ∧
      (';' ∉ cs "3") ∧ (cs "3" ≠ ([] : CStr)) ∧
      (';' ∉ cs "4") ∧ (cs "4" ≠ ([] : CStr))) ∧
    (processLine initTable (cpuLineXOf (cs "1.2.3.4") (cs "1") (cs "2") (cs "3") (cs "4") (cs "5;6"))
        = CResult.ok (applyUpdate initTable
            (.cpu (cs "1.2.3.4") (atof (cs "1")) (atof (cs "2"))
              (atof (cs "3")) (atof (cs "4"))))
      ∧ processLine initTable (memLineXOf (cs "1.2.3.4") (cs "1") (cs "2") (cs "3") (cs "4") (cs "5;6"))
          = CResult.ok (applyUpdate initTable
              (.mem (cs "1.2.3.4") (atof (cs "1")) (atof (cs "2"))
                (atof (cs "3")) (atof (cs "4"))))) :=
  ⟨⟨by decide, by decide, by decide, by decide, by decide, by decide, by decide,
      by decide, by decide, by decide⟩,
    c10_extra_fields_ignored initTable (cs "1.2.3.4") (cs "1") (cs "2") (cs "3")
      (cs "4") (cs "5;6") (by decide) (by decide) (by decide) (by decide)
      (by decide) (by decide) (by decide) (by decide) (by decide) (by decide)⟩

end Collector
